import Mathlib

/-!
Verification of the simple place-and-route tool `road0a.py`.

The Python source is shallowly embedded: each method of `SimpleRouter`
becomes a pure Lean function, the router object becomes an explicit
`RouterState` record, Python floats become exact rationals (`ℚ`), Python
exceptions become `Except`/`Option` results, and the regex-driven text
scanning is implemented as executable scanners over `List Char` that
mirror the concrete patterns appearing in the source.

Scope notes on the regex embedding: the Python patterns use `\w`, `\s`,
`\d`; here they are modelled over ASCII (`Char.isAlphanum`, the six ASCII
whitespace characters, `Char.isDigit`), which coincides with Python on
the ASCII netlists this tool is made for.
-/
/-- Python `\w` character class (ASCII fragment): letters, digits, underscore. -/
def isWordChar (c : Char) : Bool := c.isAlphanum || c == '_'

/-- Python `\s` character class (ASCII fragment): space, tab, newline,
carriage return, vertical tab, form feed. -/
def isSpaceChar (c : Char) : Bool :=
  c == ' ' || c == '\t' || c == '\n' || c == '\r' || c == '\x0b' || c == '\x0c'

/-- Embeds the dataclass `Pin` of `road0a.py` (`name`, `is_input`,
`is_output`, `net=None`, `x=0`, `y=0`). -/
structure Pin where
  name : String
  is_input : Bool
  is_output : Bool
  net : Option String := none
  x : ℚ := 0
  y : ℚ := 0
deriving Repr, DecidableEq

/-- Embeds the dataclass `Cell` of `road0a.py`. -/
structure Cell where
  name : String
  cell_type : String
  pins : List Pin
  width : ℚ := 1
  height : ℚ := 1
  x : ℚ := 0
  y : ℚ := 0
deriving Repr, DecidableEq

/-- Embeds the dataclass `Net` of `road0a.py` (never written to by the
program, but part of the router state). -/
structure Net where
  name : String
  source_pin : Option Pin := none
  sink_pins : Option (List Pin) := none
deriving Repr, DecidableEq

/-- The mutable state of a `SimpleRouter` object.  Python dicts preserve
insertion order, so `cells` and `nets` are insertion-ordered association
lists. -/
structure RouterState where
  cells : List (String × Cell)
  nets : List (String × Net)
  die_width : ℚ
  die_height : ℚ
  grid_size : ℤ
deriving Repr, DecidableEq

/-- `SimpleRouter.__init__`: empty cells and nets, 100×100 die, grid size 1. -/
def initRouter : RouterState :=
  { cells := [], nets := [], die_width := 100, die_height := 100, grid_size := 1 }

instance : DecidableEq (Except RouterState RouterState) := fun a b =>
  match a, b with
  | Except.ok a1, Except.ok b1 =>
    if h : a1 = b1 then Decidable.isTrue (by rw [h]) else Decidable.isFalse (by simp [h])
  | Except.ok _, Except.error _ => Decidable.isFalse (by simp)
  | Except.error _, Except.ok _ => Decidable.isFalse (by simp)
  | Except.error a1, Except.error b1 =>
    if h : a1 = b1 then Decidable.isTrue (by rw [h]) else Decidable.isFalse (by simp [h])

/-- Python dict assignment `m[k] = v`: overwrite in place if the key is
present (keeping its original position), else append at the end. -/
def dictInsert (m : List (String × Cell)) (k : String) (v : Cell) :
    List (String × Cell) :=
  match m with
  | [] => [(k, v)]
  | (k1, v1) :: rest => if k1 = k then (k, v) :: rest else (k1, v1) :: dictInsert rest k v

/-!  ## The module-header search

`re.search(r'module\s+(\w+)\((.*?)\);', netlist_str, re.DOTALL)`.
A match at a position is: literal `module`, one or more whitespace
characters, one or more word characters, a literal `(`, then (because
`.*?` with DOTALL matches an arbitrary character sequence lazily) any
characters up to some later occurrence of the two-character sequence `);`.
Since the `\s`/`\w`/`(` character classes are pairwise disjoint, the
greedy `\s+`/`\w+` need no backtracking, and the lazy group matches iff
`);` occurs anywhere in the remainder. -/
/-- Does the list contain the contiguous two-character sequence `);`? -/
def hasCloseSemi : List Char → Bool
  | ')' :: ';' :: _ => true
  | _ :: rest => hasCloseSemi rest
  | [] => false

/-- Does the module-header pattern match starting exactly at the head of `l`? -/
def matchModuleAt (l : List Char) : Bool :=
  if l.take 6 = ['m', 'o', 'd', 'u', 'l', 'e'] then
    let r1 := l.drop 6
    (r1.takeWhile isSpaceChar) ≠ [] &&
      (let r2 := r1.dropWhile isSpaceChar
       (r2.takeWhile isWordChar) ≠ [] &&
         (match r2.dropWhile isWordChar with
          | '(' :: r3 => hasCloseSemi r3
          | _ => false))
  else false

/-- `re.search` of the module-header pattern: does it match at some position? -/
def hasModuleHeader : List Char → Bool
  | [] => false
  | c :: cs => matchModuleAt (c :: cs) || hasModuleHeader cs

/-!  ## Expression tokenization

`re.findall(r'[ab]\[\d\]|\w+(?<!&)(?<!\|)(?<!\^)(?<!\()', expression)`.
The scanner tries, at each position, first the alternative `[ab]\[\d\]`
(a base character `a` or `b`, a literal `[`, one digit, a literal `]`),
then `\w+`.  The four lookbehind assertions inspect the character just
before the end of the `\w+` match; that character is the last character
of the `\w+` run, hence a word character and never `&`, `|`, `^` or `(`,
so the assertions always hold and are modelled as such.  On failure the
scan advances one character; matches are non-overlapping. -/
/-- The first regex alternative `[ab]\[\d\]` at the head of `c :: cs`:
returns the token and the remainder on success. -/
def altAB (c : Char) (cs : List Char) : Option (String × List Char) :=
  if c = 'a' ∨ c = 'b' then
    match cs with
    | '[' :: d :: ']' :: rest =>
        if d.isDigit then some (String.mk [c, '[', d, ']'], rest) else none
    | _ => none
  else none

/-- The token scan of `re.findall` for the pin-extraction pattern,
written with an explicit step budget so that it is structural recursion
(and hence reduces inside the kernel).  Every step consumes at least one
character, so a budget of `l.length` always suffices; the budget-0 branch
is unreachable on the calls made by `findTokens` (`findTokensF_fuel_ge`
proves the budget irrelevant). -/
def findTokensF : ℕ → List Char → List String
  | 0, _ => []
  | _ + 1, [] => []
  | fuel + 1, c :: cs =>
    match altAB c cs with
    | some (tok, rest) => tok :: findTokensF fuel rest
    | none =>
      if isWordChar c then
        String.mk (c :: cs.takeWhile isWordChar) :: findTokensF fuel (cs.dropWhile isWordChar)
      else
        findTokensF fuel cs

/-- The token scan of `re.findall` for the pin-extraction pattern. -/
def findTokens (l : List Char) : List String := findTokensF l.length l

/-!  ## The assign-statement scanner

`re.finditer(r'assign\s+(\w+)\s*=\s*(.+?);', netlist_str)` (no DOTALL, so
`.` excludes `'\n'`).  `\s+`, `\w+` and the literal `=` involve pairwise
disjoint character classes, so their greediness needs no backtracking; the
interplay between the greedy `\s*` and the lazy `(.+?)` does: the engine
first lets `\s*` take the whole whitespace run, and on failure of the
lazy part retries with shorter and shorter whitespace prefixes
(`tryExpr`).  The lazy `(.+?);` itself takes the shortest non-empty
newline-free prefix that is followed by a `;` (`lazyExpr`). -/
/-- `(.+?);` — shortest non-empty `'\n'`-free prefix followed by `';'`;
returns the captured expression and the remainder after the `';'`. -/
def lazyExpr : List Char → Option (List Char × List Char)
  | [] => none
  | c :: cs =>
    if c = '\n' then none
    else
      match cs with
      | ';' :: rest => some ([c], rest)
      | _ => (lazyExpr cs).map (fun er => (c :: er.1, er.2))

/-- Backtracking of the greedy `\s*` before the lazy group: try the
expression start after `p` whitespace characters, preferring larger `p`. -/
def tryExpr : ℕ → List Char → Option (List Char × List Char)
  | 0, l => lazyExpr l
  | p + 1, l =>
    match lazyExpr (l.drop (p + 1)) with
    | some er => some er
    | none => tryExpr p l

/-- One attempted match of the assign pattern at the head of `l`:
on success returns the target name, the expression characters and the
remainder of the input after the closing `';'`. -/
def matchAssignAt (l : List Char) : Option (String × List Char × List Char) :=
  if l.take 6 = ['a', 's', 's', 'i', 'g', 'n'] then
    if ((l.drop 6).takeWhile isSpaceChar) = [] then none
    else
      if ((l.drop 6).dropWhile isSpaceChar).takeWhile isWordChar = [] then none
      else
        match (((l.drop 6).dropWhile isSpaceChar).dropWhile isWordChar).dropWhile isSpaceChar with
        | '=' :: r4 =>
          match tryExpr (r4.takeWhile isSpaceChar).length r4 with
          | some er =>
              some (String.mk (((l.drop 6).dropWhile isSpaceChar).takeWhile isWordChar),
                er.1, er.2)
          | none => none
        | _ => none
  else none

/-- `re.finditer` of the assign pattern: scan left to right, emitting
every non-overlapping `(target, expression)` match.  As with
`findTokensF`, the explicit step budget keeps the recursion structural;
every step consumes at least one character, so `l.length` steps always
suffice (`findAssignsF_fuel_ge`). -/
def findAssignsF : ℕ → List Char → List (String × List Char)
  | 0, _ => []
  | _ + 1, [] => []
  | fuel + 1, c :: cs =>
    match matchAssignAt (c :: cs) with
    | some ter => (ter.1, ter.2.1) :: findAssignsF fuel ter.2.2
    | none => findAssignsF fuel cs

/-- `re.finditer` of the assign pattern over the whole netlist text. -/
def findAssigns (l : List Char) : List (String × List Char) := findAssignsF l.length l

/-!  ## Declared-port collection (computed and then discarded) -/
/-- Is `sub` a prefix of `l`? -/
def startsWithSeq : List Char → List Char → Bool
  | [], _ => true
  | _ :: _, [] => false
  | s :: ss, c :: cs => s == c && startsWithSeq ss cs

/-- Python `sub in line`: does `sub` occur contiguously in `l`? -/
def containsSeq (sub : List Char) : List Char → Bool
  | [] => startsWithSeq sub []
  | c :: cs => startsWithSeq sub (c :: cs) || containsSeq sub cs

/-- The optional `(?:\[\d+:\d+\])?` bit-range group. -/
def parseBitRange (l : List Char) : Option (List Char) :=
  match l with
  | '[' :: r =>
    if (r.takeWhile Char.isDigit) = [] then none
    else
      match r.dropWhile Char.isDigit with
      | ':' :: r2 =>
        if (r2.takeWhile Char.isDigit) = [] then none
        else
          match r2.dropWhile Char.isDigit with
          | ']' :: r3 => some r3
          | _ => none
      | _ => none
  | _ => none

/-- One attempted match of `kw\s+(?:\[\d+:\d+\])?\s*(\w+)` at the head of
`l`, returning the captured port name.  (If the optional bit-range group
fails or is followed by no word character, the regex falls back to not
taking the group, where `\w+` then faces the `'['` and fails too.) -/
def matchPortAt (kw : List Char) (l : List Char) : Option String :=
  if l.take kw.length = kw then
    let r1 := l.drop kw.length
    if (r1.takeWhile isSpaceChar) = [] then none
    else
      let r2 := r1.dropWhile isSpaceChar
      match parseBitRange r2 with
      | some r3 =>
        let w := (r3.dropWhile isSpaceChar).takeWhile isWordChar
        if w = [] then none else some (String.mk w)
      | none =>
        let w := r2.takeWhile isWordChar
        if w = [] then none else some (String.mk w)
  else none

/-- `re.search` of the port pattern: first match over all start positions. -/
def searchPort (kw : List Char) : List Char → Option String
  | [] => none
  | c :: cs =>
    match matchPortAt kw (c :: cs) with
    | some w => some w
    | none => searchPort kw cs

/-- The port-collection loop of `parse_yosys`: for every line, if it
contains the substring `input`, search the input-declaration pattern and
record the name; otherwise, if it contains `output`, likewise.  The Python
sets are modelled as lists of the added elements (the program never reads
them back, so the set semantics is unobservable). -/
def collectDeclaredPorts (netlist : String) : List String × List String :=
  (netlist.splitOn "\n").foldl
    (fun acc line =>
      let l := line.toList
      if containsSeq ['i', 'n', 'p', 'u', 't'] l then
        match searchPort ['i', 'n', 'p', 'u', 't'] l with
        | some w => (acc.1 ++ [w], acc.2)
        | none => acc
      else if containsSeq ['o', 'u', 't', 'p', 'u', 't'] l then
        match searchPort ['o', 'u', 't', 'p', 'u', 't'] l with
        | some w => (acc.1, acc.2 ++ [w])
        | none => acc
      else acc)
    ([], [])

/-!  ## Cell synthesis from assign statements -/
/-- The operator filter `signal not in ('&', '|', '^', '~')`. -/
def opSym (s : String) : Bool := s == "&" || s == "|" || s == "^" || s == "~"

/-- The body of the assign loop of `parse_yosys`: one cell per assign
statement, with the output pin first and one input pin appended per
non-operator token of the expression. -/
def mkAssignCell (target : String) (expr : List Char) : Cell :=
  { name := "cell_" ++ target
    cell_type := "LOGIC"
    pins := (findTokens expr).foldl
      (fun ps signal =>
        if opSym signal then ps
        else ps ++ [{ name := signal, is_input := true, is_output := false }])
      [{ name := target, is_input := false, is_output := true }] }

/-- The assign loop: `self.cells[cell_name] = cell` for every match. -/
def assignLoop (assigns : List (String × List Char)) (cells : List (String × Cell)) :
    List (String × Cell) :=
  assigns.foldl (fun m te => dictInsert m ("cell_" ++ te.1) (mkAssignCell te.1 te.2)) cells

/-- `SimpleRouter.parse_yosys`.  Raising `ValueError` is modelled as
`Except.error` carrying the router state at the moment of the raise
(which is the unmodified input state, since the raise precedes the
assign loop).  The module-name/port-list capture groups and the declared
port sets are computed by the source and never used again; the latter are
kept here as a discarded `let` binding. -/
def parseYosys (netlist : String) (st : RouterState) : Except RouterState RouterState :=
  if hasModuleHeader netlist.toList then
    let _declared_ports := collectDeclaredPorts netlist
    Except.ok { st with cells := assignLoop (findAssigns netlist.toList) st.cells }
  else
    Except.error st

/-!  ## Placement -/
/-- `math.ceil(math.sqrt(n))`, computed exactly over ℕ: `0` for `n = 0`,
else `Nat.sqrt (n-1) + 1` (the least `s` with `n ≤ s*s`). -/
def ceilSqrt (n : ℕ) : ℕ := if n = 0 then 0 else Nat.sqrt (n - 1) + 1

/-- The placement walk of `place_cells`: `current_x`/`current_y` grid
counters, incrementing `current_x` and wrapping to the next row when it
reaches `grid_size`.  Each cell is placed at the centre of its slot. -/
def placeLoop (gw gh : ℚ) (s : ℕ) : ℕ → ℕ → List (String × Cell) → List (String × Cell)
  | _, _, [] => []
  | cx, cy, (k, c) :: rest =>
    (k, { c with x := (cx : ℚ) * gw + gw / 2, y := (cy : ℚ) * gh + gh / 2 }) ::
      (if s ≤ cx + 1 then placeLoop gw gh s 0 (cy + 1) rest
       else placeLoop gw gh s (cx + 1) cy rest)

/-- `SimpleRouter.place_cells`.  With zero cells the grid side is `0` and
the source evaluates `self.die_width / grid_size`, a Python
`ZeroDivisionError`, modelled as `none`. -/
def placeCells (st : RouterState) : Option RouterState :=
  let grid_size := ceilSqrt st.cells.length
  if grid_size = 0 then none
  else
    some { st with
      cells := placeLoop (st.die_width / (grid_size : ℚ)) (st.die_height / (grid_size : ℚ))
        grid_size 0 0 st.cells }

/-!  ## Routing -/
/-- `SimpleRouter.create_manhattan_route`: the 3-point horizontal-first
path from `start` to `endp`. -/
def createManhattanRoute (start endp : ℚ × ℚ) : List (ℚ × ℚ) :=
  [start, (endp.1, start.2), endp]

/-- `SimpleRouter.route_nets`: for every output pin of every cell, scan
every pin of every cell; for every input pin with the same name, emit one
route keyed by the shared name. -/
def routeNets (cells : List Cell) : List (String × List (ℚ × ℚ)) :=
  cells.flatMap fun cell =>
    cell.pins.flatMap fun pin =>
      if pin.is_output then
        cells.flatMap fun target_cell =>
          target_cell.pins.filterMap fun target_pin =>
            if target_pin.is_input && target_pin.name == pin.name then
              some (pin.name, createManhattanRoute (cell.x, cell.y) (target_cell.x, target_cell.y))
            else none
      else []

/-!  ## Serialization -/
/-- Python `int()` applied to a float: truncation toward zero. -/
def truncQ (q : ℚ) : ℤ := if q < 0 then ⌈q⌉ else ⌊q⌋

/-- One path point `f"( {int(x)} {int(y)} )"` with truncated coordinates. -/
def pointStr (p : ℚ × ℚ) : String :=
  "( " ++ toString (truncQ p.1) ++ " " ++ toString (truncQ p.2) ++ " )"

/-- The two lines appended per cell in the COMPONENTS section. -/
def cellEntry (c : Cell) : List String :=
  ["- " ++ c.name ++ " " ++ c.cell_type,
   "  + PLACED ( " ++ toString (truncQ c.x) ++ " " ++ toString (truncQ c.y) ++ " ) N ;"]

/-- The two lines appended per route in the NETS section. -/
def routeEntry (r : String × List (ℚ × ℚ)) : List String :=
  ["- " ++ r.1,
   "  + ROUTED " ++ " ".intercalate (r.2.map pointStr) ++ " ;"]

/-- The `def_content` line list built by `SimpleRouter.generate_def`
(f-strings written as plain concatenations). -/
def defContent (st : RouterState) : List String :=
  ["VERSION 5.8 ;", "DESIGN top ;", "UNITS DISTANCE MICRONS 1000 ;",
    "DIEAREA ( 0 0 ) ( " ++ toString st.die_width ++ " "
      ++ toString st.die_height ++ " ) ;"]
  ++ (("COMPONENTS " ++ toString st.cells.length ++ " ;")
        :: (st.cells.map Prod.snd).flatMap cellEntry)
  ++ ["END COMPONENTS"]
  ++ (("NETS " ++ toString (routeNets (st.cells.map Prod.snd)).length ++ " ;")
        :: (routeNets (st.cells.map Prod.snd)).flatMap routeEntry)
  ++ ["END NETS", "END DESIGN"]

/-- `SimpleRouter.generate_def`: the joined document text. -/
def generateDef (st : RouterState) : String := "\n".intercalate (defContent st)

/-- A call of `generate_def` as a state transformer: the method only reads
the router state, so the post-call state is the input state. -/
def generateDefCall (st : RouterState) : String × RouterState := (generateDef st, st)

/-- The `place_route` script of `road0a.py` followed by the final
`generate_def` call: the produced output document, or `none` when the
pipeline dies in an exception (`ValueError` from `parse_yosys` or
`ZeroDivisionError` from `place_cells`). -/
def pipelineOutput (netlist : String) : Option String :=
  match parseYosys netlist initRouter with
  | Except.error _ => none
  | Except.ok st =>
    match placeCells st with
    | none => none
    | some st2 => some (generateDef st2)

/-- The parsed state of the witness netlist for C10. -/
def exParsed : RouterState :=
  { cells := [("cell_y",
      { name := "cell_y", cell_type := "LOGIC",
        pins := [{ name := "y", is_input := false, is_output := true },
                 { name := "a", is_input := true, is_output := false }] })],
    nets := [], die_width := 100, die_height := 100, grid_size := 1 }

/-!  ## C6 — tokenization of bit-indexed references -/
/-- The shapes a token of the pin-extraction scan can take: either the
first regex alternative (base `a` or `b`, single-digit index) or a
non-empty run of word characters. -/
def tokenShapeOk (t : String) : Prop :=
  (∃ c d, (c = 'a' ∨ c = 'b') ∧ d.isDigit = true ∧ t.data = [c, '[', d, ']'])
  ∨ (t.data ≠ [] ∧ ∀ c ∈ t.data, isWordChar c = true)

/-- `tokensDecomp l ts` — the token list `ts` decomposes the input `l`:
the tokens occur in order as contiguous substrings of `l`, every
character of `l` outside the tokens (the gaps between them and the
trailing remainder) is a non-word character, each token is either an
atomic `[ab]\[\d\]` reference or a non-empty run of word characters, and
a word-run token is never immediately followed by a word character
(right-maximality).  Together these say the scan never splits a maximal
word-character run (an identifier) across tokens and never drops an
identifier character: a word-run token is flanked by non-word characters
on both sides, since gaps are word-free, an atomic token ends in `]`,
and a preceding word-run token cannot abut it by its own
right-maximality. -/
def tokensDecomp : List Char → List String → Prop
  | l, [] => ∀ c ∈ l, isWordChar c = false
  | l, t :: ts =>
    ∃ gap rest, l = gap ++ t.data ++ rest
      ∧ (∀ c ∈ gap, isWordChar c = false)
      ∧ ((∃ c d, (c = 'a' ∨ c = 'b') ∧ d.isDigit = true ∧ t.data = [c, '[', d, ']'])
         ∨ (t.data ≠ [] ∧ (∀ c ∈ t.data, isWordChar c = true)
            ∧ (∀ c ∈ rest.take 1, isWordChar c = false)))
      ∧ tokensDecomp rest ts

/-!  ## C1 — route_nets emits exactly one route per (output, input) name match

The inner two loops of `route_nets` are isolated as `innerScan` (the
body of `routeNets` is definitionally `innerScan` at each output pin),
and the claim is stated against an independent enumeration of all
ordered pin pairs: `routeNets` equals the image of the filtered pair
product. -/
/-- The inner two loops of `route_nets`: scan every pin of every cell for
inputs named `nm`, emitting one route from `(sx, sy)` per match. -/
def innerScan (cells : List Cell) (nm : String) (sx sy : ℚ) :
    List (String × List (ℚ × ℚ)) :=
  cells.flatMap fun target_cell =>
    target_cell.pins.filterMap fun target_pin =>
      if target_pin.is_input && target_pin.name == nm then
        some (nm, createManhattanRoute (sx, sy) (target_cell.x, target_cell.y))
      else none

/-- All pins of all cells, each paired with its owning cell, in iteration
order. -/
def cellPins (cells : List Cell) : List (Cell × Pin) :=
  cells.flatMap fun c => c.pins.map fun p => (c, p)

/-- The ordered pair product of two lists (outer-major order). -/
def listProd (l1 l2 : List (Cell × Pin)) : List ((Cell × Pin) × (Cell × Pin)) :=
  l1.flatMap fun a => l2.map fun b => (a, b)

/-- The matching criterion of `route_nets` on an ordered pin pair
`(p, q)`: `p` is an output, `q` is an input, and `q`'s name equals
`p`'s. -/
def routePairOk (pq : (Cell × Pin) × (Cell × Pin)) : Bool :=
  pq.1.2.is_output && (pq.2.2.is_input && (pq.2.2.name == pq.1.2.name))

/-- The route emitted for a matching pin pair: keyed by the output pin's
name, running from the source cell's location to the sink cell's. -/
def routeFor (pq : (Cell × Pin) × (Cell × Pin)) : String × List (ℚ × ℚ) :=
  (pq.1.2.name, createManhattanRoute (pq.1.1.x, pq.1.1.y) (pq.2.1.x, pq.2.1.y))

/-- The two-cell scenario of the spec (`assign y = a;` / `assign z = y;`)
as an extracted router state, for the C2 witness. -/
def exTwoCells : RouterState :=
  { cells := [("cell_y",
      { name := "cell_y", cell_type := "LOGIC",
        pins := [{ name := "y", is_input := false, is_output := true },
                 { name := "a", is_input := true, is_output := false }] }),
     ("cell_z",
      { name := "cell_z", cell_type := "LOGIC",
        pins := [{ name := "z", is_input := false, is_output := true },
                 { name := "y", is_input := true, is_output := false }] })],
    nets := [], die_width := 100, die_height := 100, grid_size := 1 }

/-- A placed cell with non-integer coordinates, for the C8 witness
(`int(5/2) = 2`, `int(99/10) = 9`: truncated, not rounded). -/
def exSerCell : Cell :=
  { name := "c", cell_type := "LOGIC", pins := [], x := 5 / 2, y := 99 / 10 }

theorem dropWhile_len_le (p : Char → Bool) (cs : List Char) :
    (cs.dropWhile p).length ≤ cs.length := by
  induction cs with
  | nil => simp
  | cons c cs ih =>
    rw [List.dropWhile_cons]
    split
    · exact le_trans ih (by simp)
    · simp

theorem altAB_rest_length {c : Char} {cs : List Char} {t : String} {rest : List Char}
    (h : altAB c cs = some (t, rest)) : rest.length + 3 = cs.length := by
  unfold altAB at h
  split at h
  · split at h
    · split at h
      · simp_all
      · simp_all
    · simp_all
  · simp_all

theorem findTokensF_succ (fuel : ℕ) (l : List Char) (hl : l.length ≤ fuel) :
    findTokensF (fuel + 1) l = findTokensF fuel l := by
  induction fuel generalizing l with
  | zero =>
    match l, hl with
    | [], _ => rfl
  | succ fuel ih =>
    match l with
    | [] => rfl
    | c :: cs =>
      have hcs : cs.length ≤ fuel := by simpa using hl
      simp only [findTokensF]
      split
      · rename_i tok rest h
        have h1 := altAB_rest_length h
        rw [ih rest (by omega)]
      · split
        · have h2 := dropWhile_len_le isWordChar cs
          rw [ih (cs.dropWhile isWordChar) (by omega)]
        · rw [ih cs hcs]

/-- The step budget of `findTokensF` is irrelevant once it is at least
the input length: the scan is a total function of the character list. -/
theorem findTokensF_fuel_ge (fuel : ℕ) (l : List Char) (hl : l.length ≤ fuel) :
    findTokensF fuel l = findTokens l := by
  unfold findTokens
  induction fuel with
  | zero =>
    match l, hl with
    | [], _ => rfl
  | succ fuel ih =>
    by_cases h : l.length ≤ fuel
    · rw [findTokensF_succ fuel l h, ih h]
    · have h2 : l.length = fuel + 1 := by omega
      rw [h2]

theorem lazyExpr_rest_lt {l e r} (h : lazyExpr l = some (e, r)) :
    r.length + 2 ≤ l.length := by
  induction l generalizing e r with
  | nil => simp [lazyExpr] at h
  | cons c cs ih =>
    unfold lazyExpr at h
    split at h
    · simp at h
    · split at h
      · obtain ⟨he, hr⟩ := by simpa using h
        simp [← hr]
      · obtain ⟨a, h0, hfa⟩ := Option.map_eq_some'.mp h
        rw [Prod.mk.injEq] at hfa
        obtain ⟨-, hr⟩ := hfa
        have h1 := ih h0
        subst hr
        simp
        omega

theorem tryExpr_rest_lt {p l e r} (h : tryExpr p l = some (e, r)) :
    r.length + 2 ≤ l.length := by
  induction p generalizing e r with
  | zero => exact lazyExpr_rest_lt h
  | succ p ih =>
    unfold tryExpr at h
    split at h
    · rename_i er heq
      cases h
      have h1 := lazyExpr_rest_lt (l := l.drop (p + 1)) (by rw [heq])
      have h2 : (l.drop (p + 1)).length ≤ l.length := by simp
      omega
    · exact ih h

theorem matchAssignAt_rest_lt {l t e rest} (h : matchAssignAt l = some (t, e, rest)) :
    rest.length < l.length := by
  unfold matchAssignAt at h
  split at h
  case isFalse => simp at h
  case isTrue htake =>
    have hlen6 : 6 ≤ l.length := by
      have h0 : (l.take 6).length = 6 := by rw [htake]; rfl
      simpa using h0
    split at h
    · simp at h
    · split at h
      · simp at h
      · split at h
        · rename_i r4 heq4
          split at h
          · rename_i er heq
            simp only [Option.some.injEq, Prod.mk.injEq] at h
            obtain ⟨-, -, hr⟩ := h
            subst hr
            have h1 := tryExpr_rest_lt heq
            have h3 : ('=' :: r4).length
                = ((((l.drop 6).dropWhile isSpaceChar).dropWhile isWordChar).dropWhile
                    isSpaceChar).length := by rw [heq4]
            have h4 := dropWhile_len_le isSpaceChar
              (((l.drop 6).dropWhile isSpaceChar).dropWhile isWordChar)
            have h5 := dropWhile_len_le isWordChar ((l.drop 6).dropWhile isSpaceChar)
            have h6 := dropWhile_len_le isSpaceChar (l.drop 6)
            have h7 : (l.drop 6).length = l.length - 6 := by simp
            simp at h3
            omega
          · simp at h
        · simp at h

theorem findAssignsF_succ (fuel : ℕ) (l : List Char) (hl : l.length ≤ fuel) :
    findAssignsF (fuel + 1) l = findAssignsF fuel l := by
  induction fuel generalizing l with
  | zero =>
    match l, hl with
    | [], _ => rfl
  | succ fuel ih =>
    match l with
    | [] => rfl
    | c :: cs =>
      have hcs : cs.length ≤ fuel := by simpa using hl
      simp only [findAssignsF]
      split
      · rename_i ter h
        obtain ⟨t1, e1, r1⟩ := ter
        have h1 := matchAssignAt_rest_lt h
        simp only [List.length_cons] at h1
        dsimp only
        rw [ih r1 (by omega)]
      · rw [ih cs hcs]

/-- The step budget of `findAssignsF` is irrelevant once it is at least
the input length. -/
theorem findAssignsF_fuel_ge (fuel : ℕ) (l : List Char) (hl : l.length ≤ fuel) :
    findAssignsF fuel l = findAssigns l := by
  unfold findAssigns
  induction fuel with
  | zero =>
    match l, hl with
    | [], _ => rfl
  | succ fuel ih =>
    by_cases h : l.length ≤ fuel
    · rw [findAssignsF_succ fuel l h, ih h]
    · have h2 : l.length = fuel + 1 := by omega
      rw [h2]

/-!  # Claims -/
/-- C3: every route built from source `(x1,y1)` and sink `(x2,y2)` is the
3-point sequence `[(x1,y1), (x2,y1), (x2,y2)]` (horizontal first, then
vertical: the middle point takes the sink's x and the source's y), and
every route emitted by `route_nets` has this form. -/
theorem createManhattanRoute_shape (x1 y1 x2 y2 : ℚ) :
    createManhattanRoute (x1, y1) (x2, y2) = [(x1, y1), (x2, y1), (x2, y2)]
    ∧ (createManhattanRoute (x1, y1) (x2, y2)).length = 3 := ⟨rfl, rfl⟩

/-- C4 (failing input): on the empty design, `place_cells` evaluates
`die_width / 0` — a `ZeroDivisionError`, modelled as `none` — so the
pipeline on a netlist with a module header but no assigns produces no
document at all, even though the serializer itself would render a
well-formed empty document (`COMPONENTS 0` / `NETS 0`) for the empty
state. -/
theorem placeCells_empty_zero_division :
    placeCells initRouter = none
    ∧ pipelineOutput "module top(a);" = none
    ∧ defContent initRouter =
        ["VERSION 5.8 ;", "DESIGN top ;", "UNITS DISTANCE MICRONS 1000 ;",
         "DIEAREA ( 0 0 ) ( 100 100 ) ;", "COMPONENTS 0 ;", "END COMPONENTS",
         "NETS 0 ;", "END NETS", "END DESIGN"] := ⟨rfl, by decide, by decide⟩

/-- C9: `generate_def` only reads the router state, so a second call on
the state left by the first call returns the identical string, and the
route recomputation it performs is the same both times. -/
theorem generateDef_idempotent (st : RouterState) :
    (generateDefCall st).1 = (generateDefCall (generateDefCall st).2).1
    ∧ (generateDefCall st).2 = st
    ∧ routeNets ((generateDefCall st).2.cells.map Prod.snd)
        = routeNets (st.cells.map Prod.snd) := ⟨rfl, rfl, rfl⟩

/-- C5: `parse_yosys` raises exactly when the module-header pattern
`module\s+(\w+)\((.*?)\);` matches nowhere in the netlist; when it
raises, the raise precedes the assign loop, so the router state (in
particular the cell mapping) is unchanged, and the pipeline produces no
output document. -/
theorem parseYosys_error_iff (s : String) (st : RouterState) :
    ((parseYosys s st).isOk = true ↔ hasModuleHeader s.toList = true)
    ∧ (∀ e, parseYosys s st = Except.error e → e = st)
    ∧ (hasModuleHeader s.toList = false → pipelineOutput s = none) := by
  simp only [String.toList]
  by_cases h : hasModuleHeader s.data
  · refine ⟨by simp [parseYosys, h, Except.isOk, Except.toBool], ?_, by simp [h]⟩
    intro e he
    simp [parseYosys, h] at he
  · refine ⟨by simp [parseYosys, h, Except.isOk, Except.toBool], ?_, ?_⟩
    · intro e he
      simp [parseYosys, h] at he
      simp [he]
    · intro h2
      simp [pipelineOutput, parseYosys, String.toList, h]

/-- Witness for C5 at the malformed netlist of the spec's test scenario. -/
theorem parseYosys_error_iff_witness : pipelineOutput "no module here" = none :=
  (parseYosys_error_iff "no module here" initRouter).2.2 (by decide)

/-- C10: on success, the only field of the router state that
`parse_yosys` changes is the cell mapping, whose new value is a function
of the assign statements alone; the declared input/output port sets are
bound to local variables and discarded, and `die_width`, `die_height`,
`grid_size` and `nets` are untouched. -/
theorem parseYosys_frame (s : String) (st st2 : RouterState)
    (h : parseYosys s st = Except.ok st2) :
    st2.nets = st.nets ∧ st2.die_width = st.die_width
    ∧ st2.die_height = st.die_height ∧ st2.grid_size = st.grid_size
    ∧ st2 = { st with cells := assignLoop (findAssigns s.toList) st.cells } := by
  unfold parseYosys at h
  split at h
  · have h2 : Except.ok (ε := RouterState)
        { st with cells := assignLoop (findAssigns s.toList) st.cells } = Except.ok st2 := h
    cases h2
    exact ⟨rfl, rfl, rfl, rfl, rfl⟩
  · cases h

/-- Witness for C10 on a concrete one-assign netlist. -/
theorem parseYosys_frame_witness :
    exParsed.nets = initRouter.nets ∧ exParsed.die_width = initRouter.die_width
    ∧ exParsed.die_height = initRouter.die_height
    ∧ exParsed.grid_size = initRouter.grid_size
    ∧ exParsed = { initRouter with
        cells := assignLoop
          (findAssigns "module top(a,y);\n input a;\n output y;\n assign y = a;\n".toList)
          initRouter.cells } :=
  parseYosys_frame "module top(a,y);\n input a;\n output y;\n assign y = a;\n"
    initRouter exParsed (by decide)

theorem altAB_shape {c : Char} {cs : List Char} {t : String} {rest : List Char}
    (h : altAB c cs = some (t, rest)) :
    ∃ c0 d, (c0 = 'a' ∨ c0 = 'b') ∧ d.isDigit = true ∧ t.data = [c0, '[', d, ']'] := by
  unfold altAB at h
  split at h
  case isTrue hab =>
    split at h
    · rename_i d rest1
      split at h
      case isTrue hd =>
        refine ⟨c, d, hab, hd, ?_⟩
        simp only [Option.some.injEq, Prod.mk.injEq] at h
        rw [← h.1]
      case isFalse => simp at h
    · simp at h
  case isFalse => simp at h

theorem findTokensF_shape (fuel : ℕ) :
    ∀ l t, t ∈ findTokensF fuel l → tokenShapeOk t := by
  induction fuel with
  | zero => intro l t ht; simp [findTokensF] at ht
  | succ fuel ih =>
    intro l t ht
    match l with
    | [] => simp [findTokensF] at ht
    | c :: cs =>
      rw [findTokensF] at ht
      split at ht
      · rename_i tok rest haa
        rcases List.mem_cons.mp ht with h1 | h1
        · subst h1
          exact Or.inl (altAB_shape haa)
        · exact ih _ _ h1
      · split at ht
        · rename_i hw
          rcases List.mem_cons.mp ht with h1 | h1
          · subst h1
            refine Or.inr ⟨by simp, ?_⟩
            intro x hx
            rcases List.mem_cons.mp hx with h2 | h2
            · subst h2; exact hw
            · exact List.mem_takeWhile_imp h2
          · exact ih _ _ h1
        · exact ih _ _ ht

theorem altAB_inv {c : Char} {cs : List Char} {t : String} {rest : List Char}
    (h : altAB c cs = some (t, rest)) :
    ∃ d, (c = 'a' ∨ c = 'b') ∧ d.isDigit = true ∧ t.data = [c, '[', d, ']']
      ∧ cs = '[' :: d :: ']' :: rest := by
  unfold altAB at h
  split at h
  case isTrue hab =>
    split at h
    · rename_i d rest1
      split at h
      case isTrue hd =>
        simp only [Option.some.injEq, Prod.mk.injEq] at h
        exact ⟨d, hab, hd, by rw [← h.1], by rw [h.2]⟩
      case isFalse => simp at h
    · simp at h
  case isFalse => simp at h

theorem take_one_dropWhile (p : Char → Bool) (l : List Char) :
    ∀ c ∈ (l.dropWhile p).take 1, p c = false := by
  induction l with
  | nil => simp
  | cons a l ih =>
    rw [List.dropWhile_cons]
    split
    · exact ih
    · rename_i h
      intro c hc
      simp only [List.take_cons_succ, List.take_zero, List.mem_singleton] at hc
      subst hc
      simpa using h

theorem tokensDecomp_cons_skip {c : Char} {cs : List Char} {ts : List String}
    (hc : isWordChar c = false) (h : tokensDecomp cs ts) :
    tokensDecomp (c :: cs) ts := by
  cases ts with
  | nil =>
    simp only [tokensDecomp] at h ⊢
    intro x hx
    rcases List.mem_cons.mp hx with h1 | h1
    · rw [h1]; exact hc
    · exact h x h1
  | cons t ts =>
    simp only [tokensDecomp] at h ⊢
    obtain ⟨gap, rest, heq, hgap, hshape, hrec⟩ := h
    refine ⟨c :: gap, rest, by rw [heq]; rfl, ?_, hshape, hrec⟩
    intro x hx
    rcases List.mem_cons.mp hx with h1 | h1
    · rw [h1]; exact hc
    · exact hgap x h1

theorem findTokensF_decomp (fuel : ℕ) :
    ∀ l : List Char, l.length ≤ fuel → tokensDecomp l (findTokensF fuel l) := by
  induction fuel with
  | zero =>
    intro l hl
    match l, hl with
    | [], _ =>
      intro c hc
      simp at hc
  | succ fuel ih =>
    intro l hl
    match l with
    | [] =>
      intro c hc
      simp at hc
    | c :: cs =>
      rw [findTokensF]
      split
      · rename_i tok rest haa
        obtain ⟨d, hab, hd, hdata, hcs⟩ := altAB_inv haa
        simp only [tokensDecomp]
        refine ⟨[], rest, ?_, by simp, Or.inl ⟨c, d, hab, hd, hdata⟩, ?_⟩
        · rw [hdata, hcs]
          rfl
        · apply ih
          have h1 : cs.length = rest.length + 3 := by rw [hcs]; rfl
          simp only [List.length_cons] at hl
          omega
      · split
        · rename_i haa hw
          simp only [tokensDecomp]
          refine ⟨[], cs.dropWhile isWordChar, ?_,
            by simp, Or.inr ⟨by simp, ?_, take_one_dropWhile isWordChar cs⟩, ?_⟩
          · simp [List.takeWhile_append_dropWhile]
          · intro x hx
            rcases List.mem_cons.mp hx with h1 | h1
            · rw [h1]; exact hw
            · exact List.mem_takeWhile_imp h1
          · apply ih
            have h1 := dropWhile_len_le isWordChar cs
            simp only [List.length_cons] at hl
            omega
        · rename_i haa hw
          have hc : isWordChar c = false := by simpa using hw
          apply tokensDecomp_cons_skip hc
          apply ih
          simp only [List.length_cons] at hl
          omega

/-- C6 (counterexample): the bit-indexed reference `c[0]` is not produced
as the atomic token `c[0]`; the scanner splits it into `c` and `0`. -/
theorem findTokens_splits_general_index :
    findTokens "c[0]".toList = ["c", "0"]
    ∧ findTokens "c[0]".toList ≠ ["c[0]"]
    ∧ findTokens "a[10]".toList = ["a", "10"] := by
  refine ⟨by decide, by decide, by decide⟩

/-- C6 (amended): only bit-indexed references of the shape `[ab]\[\d\]`
(base a single `a` or `b`, single-digit index) are atomic tokens; every
other token is a non-empty run of word characters.  The `tokensDecomp`
conjunct states this for every expression, with maximality: the tokens
decompose the input in order, all characters outside tokens are
non-word, and no word-run token is immediately followed by a word
character — so a plain identifier (a maximal word-character run) is
never split across tokens and never partially dropped, while any
bit-indexed reference not of the `[ab]\[\d\]` shape is split into its
base run and its index run. -/
theorem findTokens_token_shapes :
    (∀ l t, t ∈ findTokens l → tokenShapeOk t)
    ∧ (∀ l, tokensDecomp l (findTokens l))
    ∧ findTokens "a[0]".toList = ["a[0]"]
    ∧ findTokens "b[7]".toList = ["b[7]"]
    ∧ findTokens "c[0]".toList = ["c", "0"]
    ∧ findTokens "ab[0]".toList = ["ab", "0"]
    ∧ findTokens "sum_1".toList = ["sum_1"] :=
  ⟨fun l => findTokensF_shape l.length l,
   fun l => findTokensF_decomp l.length l le_rfl,
   by decide, by decide, by decide, by decide, by decide⟩

/-- Witness for C6: the shape predicate holds on a token actually
produced by the scanner. -/
theorem findTokens_token_shapes_witness : tokenShapeOk "a[0]" :=
  findTokens_token_shapes.1 "a[0]&x".toList "a[0]" (by decide)

/-!  ## C7 — pins synthesized per assign statement -/
theorem pins_foldl_append (tokens : List String) (init : List Pin) :
    tokens.foldl
      (fun ps signal =>
        if opSym signal then ps
        else ps ++ [{ name := signal, is_input := true, is_output := false }]) init
    = init ++ (tokens.filter (fun t => !opSym t)).map
        (fun s => { name := s, is_input := true, is_output := false }) := by
  induction tokens generalizing init with
  | nil => simp
  | cons t ts ih =>
    simp only [List.foldl_cons, List.filter_cons]
    by_cases h : opSym t
    · simp [h, ih]
    · simp [h, ih]

/-- C7 (counterexample): for `assign y = a & a;` the expression token `a`
occurs twice and the synthesized cell gets two input pins named `a`, not
one — identifier occurrences are not deduplicated. -/
theorem mkAssignCell_duplicate_tokens :
    (mkAssignCell "y" "a & a".toList).pins =
      [{ name := "y", is_input := false, is_output := true },
       { name := "a", is_input := true, is_output := false },
       { name := "a", is_input := true, is_output := false }]
    ∧ ((mkAssignCell "y" "a & a".toList).pins.filter (fun p => p.is_input)).length = 2 := by
  refine ⟨by decide, by decide⟩

/-- C7 (amended): every assign statement synthesizes exactly one cell
named `cell_<target>` of type `LOGIC`, whose pin list is one output pin
named `target` followed by one input pin per occurrence (not per
distinct identifier: duplicates are kept) of each non-operator token of
the expression, in occurrence order. -/
theorem mkAssignCell_spec (target : String) (expr : List Char) :
    (mkAssignCell target expr).name = "cell_" ++ target
    ∧ (mkAssignCell target expr).cell_type = "LOGIC"
    ∧ (mkAssignCell target expr).pins
        = { name := target, is_input := false, is_output := true }
          :: ((findTokens expr).filter (fun t => !opSym t)).map
              (fun s => { name := s, is_input := true, is_output := false }) := by
  refine ⟨rfl, rfl, ?_⟩
  unfold mkAssignCell
  rw [pins_foldl_append]
  simp

theorem filterMap_pins_eq (c : Cell) (nm : String) (sx sy : ℚ) (pins : List Pin) :
    (pins.filterMap fun target_pin =>
        if target_pin.is_input && target_pin.name == nm then
          some (nm, createManhattanRoute (sx, sy) (c.x, c.y))
        else none)
    = (((pins.map fun p => (c, p)).filter
          fun b => b.2.is_input && b.2.name == nm).map
        fun b => (nm, createManhattanRoute (sx, sy) (b.1.x, b.1.y))) := by
  induction pins with
  | nil => rfl
  | cons p ps ih =>
    rw [List.map_cons, List.filter_cons]
    by_cases h : (p.is_input && p.name == nm) = true
    · rw [List.filterMap_cons_some (by rw [if_pos h]), if_pos h, List.map_cons, ih]
    · rw [List.filterMap_cons_none (by rw [if_neg h]), if_neg h, ih]

theorem innerScan_eq (cells : List Cell) (nm : String) (sx sy : ℚ) :
    innerScan cells nm sx sy
    = (((cellPins cells).filter fun b => b.2.is_input && b.2.name == nm).map
        fun b => (nm, createManhattanRoute (sx, sy) (b.1.x, b.1.y))) := by
  induction cells with
  | nil => rfl
  | cons c cs ih =>
    simp only [innerScan, cellPins, List.flatMap_cons, List.filter_append, List.map_append]
    simp only [innerScan, cellPins] at ih
    rw [filterMap_pins_eq, ih]

theorem pin_pairs_aux (c : Cell) (p : Pin) (hp : p.is_output = true)
    (P : List (Cell × Pin)) :
    (((P.map fun b => ((c, p), b)).filter routePairOk).map routeFor)
    = ((P.filter fun b => b.2.is_input && b.2.name == p.name).map
        fun b => (p.name, createManhattanRoute (c.x, c.y) (b.1.x, b.1.y))) := by
  induction P with
  | nil => rfl
  | cons b bs ih =>
    rw [List.map_cons, List.filter_cons, List.filter_cons]
    by_cases hb : (b.2.is_input && b.2.name == p.name) = true
    · have hok : routePairOk ((c, p), b) = true := by simp [routePairOk, hp, hb]
      rw [if_pos hok, if_pos hb, List.map_cons, List.map_cons, ih]
      rfl
    · have hb2 : (b.2.is_input && b.2.name == p.name) = false := by simpa using hb
      have hok : routePairOk ((c, p), b) = false := by simp [routePairOk, hb2]
      rw [if_neg (by simp [hok]), if_neg (by simp [hb2]), ih]

theorem pin_pairs (cells : List Cell) (c : Cell) (p : Pin) :
    (if p.is_output then innerScan cells p.name c.x c.y else [])
    = ((((cellPins cells).map fun b => ((c, p), b)).filter routePairOk).map routeFor) := by
  by_cases hp : p.is_output
  · rw [if_pos hp, innerScan_eq]
    exact (pin_pairs_aux c p hp (cellPins cells)).symm
  · rw [if_neg hp]
    have hp2 : p.is_output = false := by simpa using hp
    have hall : ∀ q ∈ (cellPins cells).map fun b => ((c, p), b), ¬ routePairOk q = true := by
      intro q hq
      obtain ⟨b, -, rfl⟩ := List.mem_map.mp hq
      simp [routePairOk, hp2]
    rw [List.filter_eq_nil_iff.mpr hall]
    rfl

theorem cell_pairs (cells : List Cell) (c : Cell) (pins : List Pin) :
    (pins.flatMap fun pin =>
        if pin.is_output then innerScan cells pin.name c.x c.y else [])
    = (((listProd (pins.map fun p => (c, p)) (cellPins cells)).filter
          routePairOk).map routeFor) := by
  induction pins with
  | nil => rfl
  | cons p ps ih =>
    simp only [List.flatMap_cons, List.map_cons, listProd, List.filter_append,
      List.map_append]
    simp only [listProd] at ih
    rw [pin_pairs, ih]

theorem outer_pairs (cells : List Cell) (outer : List Cell) :
    (outer.flatMap fun cell =>
        cell.pins.flatMap fun pin =>
          if pin.is_output then innerScan cells pin.name cell.x cell.y else [])
    = (((listProd (cellPins outer) (cellPins cells)).filter routePairOk).map
        routeFor) := by
  induction outer with
  | nil => rfl
  | cons c cs ih =>
    simp only [List.flatMap_cons, cellPins, listProd, List.flatMap_append,
      List.filter_append, List.map_append]
    simp only [cellPins, listProd] at ih
    rw [cell_pairs, ih]
    rfl

/-- C1: `route_nets` emits exactly the routes of the filtered ordered
pair enumeration: scanning all ordered pairs `(p, q)` of pins over all
cells (the same cell, and `q = p`, included), exactly one route — keyed
by `p`'s name — is emitted per pair with `p` an output and `q` an input
of equal name, and none for any other pair (in particular never for
output-output or input-input pairs); a single output thus yields one
route per matching input. -/
theorem routeNets_exact_pairs (cells : List Cell) :
    routeNets cells
      = (((listProd (cellPins cells) (cellPins cells)).filter routePairOk).map
          routeFor)
    ∧ (routeNets cells).length
      = ((listProd (cellPins cells) (cellPins cells)).filter routePairOk).length := by
  have h0 : routeNets cells
      = cells.flatMap fun cell =>
          cell.pins.flatMap fun pin =>
            if pin.is_output then innerScan cells pin.name cell.x cell.y else [] := rfl
  constructor
  · rw [h0]
    exact outer_pairs cells cells
  · rw [h0, outer_pairs cells cells]
    simp

/-!  ## C2 — grid placement -/
theorem ceilSqrt_spec (n : ℕ) (h : 0 < n) :
    0 < ceilSqrt n ∧ n ≤ ceilSqrt n * ceilSqrt n
    ∧ (ceilSqrt n - 1) * (ceilSqrt n - 1) < n := by
  unfold ceilSqrt
  rw [if_neg (by omega)]
  refine ⟨by omega, ?_, ?_⟩
  · have h1 := Nat.lt_succ_sqrt' (n - 1)
    rw [pow_two] at h1
    simp only [Nat.succ_eq_add_one] at h1
    omega
  · have h1 := Nat.sqrt_le' (n - 1)
    rw [pow_two] at h1
    simpa using (by omega : Nat.sqrt (n - 1) * Nat.sqrt (n - 1) < n)

theorem placeLoop_length (gw gh : ℚ) (s : ℕ) (l : List (String × Cell)) :
    ∀ (cx cy : ℕ), (placeLoop gw gh s cx cy l).length = l.length := by
  induction l with
  | nil => intro cx cy; rfl
  | cons kc rest ih =>
    intro cx cy
    obtain ⟨k, c⟩ := kc
    simp only [placeLoop, List.length_cons]
    split
    · rw [ih]
    · rw [ih]

theorem placeLoop_getElem (gw gh : ℚ) (s : ℕ) (l : List (String × Cell)) :
    ∀ (cx cy : ℕ), cx < s → ∀ (i : ℕ),
      (placeLoop gw gh s cx cy l)[i]?
        = (l[i]?).map fun kc =>
            (kc.1,
             { kc.2 with
                 x := (((cy * s + cx + i) % s : ℕ) : ℚ) * gw + gw / 2,
                 y := (((cy * s + cx + i) / s : ℕ) : ℚ) * gh + gh / 2 }) := by
  induction l with
  | nil =>
    intro cx cy hcx i
    rfl
  | cons kc rest ih =>
    intro cx cy hcx i
    obtain ⟨k, c⟩ := kc
    match i with
    | 0 =>
      have e1 : (cy * s + cx + 0) % s = cx := by
        rw [Nat.add_zero, Nat.add_comm, Nat.add_mul_mod_self_right, Nat.mod_eq_of_lt hcx]
      have e2 : (cy * s + cx + 0) / s = cy := by
        rw [Nat.add_zero, Nat.add_comm,
          Nat.add_mul_div_right _ _ (by omega : 0 < s), Nat.div_eq_of_lt hcx,
          Nat.zero_add]
      rw [e1, e2]
      simp [placeLoop]
    | i + 1 =>
      have hs1 : 0 < s := by omega
      simp only [placeLoop, List.getElem?_cons_succ]
      split
      · rename_i hcx1
        have hcx2 : cx + 1 = s := by omega
        rw [ih 0 (cy + 1) hs1 i]
        have e3 : (cy + 1) * s + 0 + i = cy * s + cx + (i + 1) := by
          subst hcx2
          ring
        rw [e3]
      · rename_i hcx1
        rw [ih (cx + 1) cy (by omega) i]
        have e3 : cy * s + (cx + 1) + i = cy * s + cx + (i + 1) := by ring
        rw [e3]

/-- C2: for a non-empty cell mapping of size `n` (and any positive die),
`place_cells` succeeds using the grid side `s = ceil(sqrt(n))`
(characterized by `(s-1)² < n ≤ s²`), assigns the `i`-th cell in
iteration order the slot-centre coordinates
`x = (i mod s)·(W/s) + (W/s)/2`, `y = (i div s)·(H/s) + (H/s)/2`
(row-major order), leaves keys and all other cell fields unchanged, and
the resulting coordinates are pairwise distinct and lie in
`[0, W) × [0, H)`. -/
theorem placeCells_grid (st : RouterState) (hn : 0 < st.cells.length)
    (hw : 0 < st.die_width) (hh : 0 < st.die_height) :
    ∃ st2, placeCells st = some st2
      ∧ st2.cells.length = st.cells.length
      ∧ st.cells.length ≤ ceilSqrt st.cells.length * ceilSqrt st.cells.length
      ∧ (ceilSqrt st.cells.length - 1) * (ceilSqrt st.cells.length - 1) < st.cells.length
      ∧ (∀ i : ℕ,
          st2.cells[i]?
            = (st.cells[i]?).map fun kc =>
                (kc.1,
                 { kc.2 with
                     x := ((i % ceilSqrt st.cells.length : ℕ) : ℚ)
                            * (st.die_width / (ceilSqrt st.cells.length : ℚ))
                          + (st.die_width / (ceilSqrt st.cells.length : ℚ)) / 2,
                     y := ((i / ceilSqrt st.cells.length : ℕ) : ℚ)
                            * (st.die_height / (ceilSqrt st.cells.length : ℚ))
                          + (st.die_height / (ceilSqrt st.cells.length : ℚ)) / 2 }))
      ∧ (∀ (i j : ℕ) (hi : i < st2.cells.length) (hj : j < st2.cells.length), i ≠ j →
          ¬((st2.cells[i]).2.x = (st2.cells[j]).2.x
            ∧ (st2.cells[i]).2.y = (st2.cells[j]).2.y))
      ∧ (∀ (i : ℕ) (hi : i < st2.cells.length),
          0 ≤ (st2.cells[i]).2.x ∧ (st2.cells[i]).2.x < st.die_width
          ∧ 0 ≤ (st2.cells[i]).2.y ∧ (st2.cells[i]).2.y < st.die_height) := by
  obtain ⟨hs_pos, hns, hs1n⟩ := ceilSqrt_spec st.cells.length hn
  have hsQ : (0 : ℚ) < (ceilSqrt st.cells.length : ℚ) := by exact_mod_cast hs_pos
  have hgw : 0 < st.die_width / (ceilSqrt st.cells.length : ℚ) := div_pos hw hsQ
  have hgh : 0 < st.die_height / (ceilSqrt st.cells.length : ℚ) := div_pos hh hsQ
  have hlen : ∀ cx cy, (placeLoop (st.die_width / (ceilSqrt st.cells.length : ℚ))
      (st.die_height / (ceilSqrt st.cells.length : ℚ))
      (ceilSqrt st.cells.length) cx cy st.cells).length = st.cells.length :=
    placeLoop_length _ _ _ st.cells
  have hcoords : ∀ (i : ℕ)
      (hi : i < (placeLoop (st.die_width / (ceilSqrt st.cells.length : ℚ))
        (st.die_height / (ceilSqrt st.cells.length : ℚ))
        (ceilSqrt st.cells.length) 0 0 st.cells).length),
      ((placeLoop (st.die_width / (ceilSqrt st.cells.length : ℚ))
          (st.die_height / (ceilSqrt st.cells.length : ℚ))
          (ceilSqrt st.cells.length) 0 0 st.cells)[i]).2.x
        = ((i % ceilSqrt st.cells.length : ℕ) : ℚ)
            * (st.die_width / (ceilSqrt st.cells.length : ℚ))
          + (st.die_width / (ceilSqrt st.cells.length : ℚ)) / 2
      ∧ ((placeLoop (st.die_width / (ceilSqrt st.cells.length : ℚ))
          (st.die_height / (ceilSqrt st.cells.length : ℚ))
          (ceilSqrt st.cells.length) 0 0 st.cells)[i]).2.y
        = ((i / ceilSqrt st.cells.length : ℕ) : ℚ)
            * (st.die_height / (ceilSqrt st.cells.length : ℚ))
          + (st.die_height / (ceilSqrt st.cells.length : ℚ)) / 2 := by
    intro i hi
    have hi2 : i < st.cells.length := by rw [← hlen 0 0]; exact hi
    have h1 := placeLoop_getElem (st.die_width / (ceilSqrt st.cells.length : ℚ))
      (st.die_height / (ceilSqrt st.cells.length : ℚ)) (ceilSqrt st.cells.length)
      st.cells 0 0 hs_pos i
    simp only [Nat.zero_mul, Nat.zero_add] at h1
    rw [List.getElem?_eq_getElem hi, List.getElem?_eq_getElem hi2] at h1
    simp only [Option.map_some'] at h1
    have h2 := Option.some.inj h1
    rw [h2]
    exact ⟨rfl, rfl⟩
  refine ⟨{ st with
      cells := placeLoop (st.die_width / (ceilSqrt st.cells.length : ℚ))
        (st.die_height / (ceilSqrt st.cells.length : ℚ))
        (ceilSqrt st.cells.length) 0 0 st.cells }, ?_, hlen 0 0, hns, hs1n, ?_, ?_, ?_⟩
  · simp only [placeCells]
    rw [if_neg (by omega)]
  · intro i
    have h1 := placeLoop_getElem (st.die_width / (ceilSqrt st.cells.length : ℚ))
      (st.die_height / (ceilSqrt st.cells.length : ℚ)) (ceilSqrt st.cells.length)
      st.cells 0 0 hs_pos i
    simp only [Nat.zero_mul, Nat.zero_add] at h1
    exact h1
  · intro i j hi hj hne hcontra
    obtain ⟨hxy, hyy⟩ := hcontra
    obtain ⟨hxi, hyi⟩ := hcoords i hi
    obtain ⟨hxj, hyj⟩ := hcoords j hj
    rw [hxi, hxj] at hxy
    rw [hyi, hyj] at hyy
    have h1 : ((i % ceilSqrt st.cells.length : ℕ) : ℚ)
        * (st.die_width / (ceilSqrt st.cells.length : ℚ))
        = ((j % ceilSqrt st.cells.length : ℕ) : ℚ)
            * (st.die_width / (ceilSqrt st.cells.length : ℚ)) := by linarith
    have h2 : ((i / ceilSqrt st.cells.length : ℕ) : ℚ)
        * (st.die_height / (ceilSqrt st.cells.length : ℚ))
        = ((j / ceilSqrt st.cells.length : ℕ) : ℚ)
            * (st.die_height / (ceilSqrt st.cells.length : ℚ)) := by linarith
    have h3 : i % ceilSqrt st.cells.length = j % ceilSqrt st.cells.length := by
      have := mul_right_cancel₀ (ne_of_gt hgw) h1
      exact_mod_cast this
    have h4 : i / ceilSqrt st.cells.length = j / ceilSqrt st.cells.length := by
      have := mul_right_cancel₀ (ne_of_gt hgh) h2
      exact_mod_cast this
    exact hne (by
      rw [← Nat.div_add_mod i (ceilSqrt st.cells.length),
        ← Nat.div_add_mod j (ceilSqrt st.cells.length), h3, h4])
  · intro i hi
    obtain ⟨hxi, hyi⟩ := hcoords i hi
    have hi2 : i < st.cells.length := by rw [← hlen 0 0]; exact hi
    have hcol : i % ceilSqrt st.cells.length < ceilSqrt st.cells.length :=
      Nat.mod_lt i hs_pos
    have hrow : i / ceilSqrt st.cells.length < ceilSqrt st.cells.length := by
      rw [Nat.div_lt_iff_lt_mul hs_pos]
      omega
    have hcolQ : ((i % ceilSqrt st.cells.length : ℕ) : ℚ) + 1
        ≤ (ceilSqrt st.cells.length : ℚ) := by exact_mod_cast Nat.succ_le_of_lt hcol
    have hrowQ : ((i / ceilSqrt st.cells.length : ℕ) : ℚ) + 1
        ≤ (ceilSqrt st.cells.length : ℚ) := by exact_mod_cast Nat.succ_le_of_lt hrow
    have hcol0 : (0 : ℚ) ≤ ((i % ceilSqrt st.cells.length : ℕ) : ℚ) := Nat.cast_nonneg _
    have hrow0 : (0 : ℚ) ≤ ((i / ceilSqrt st.cells.length : ℕ) : ℚ) := Nat.cast_nonneg _
    have hW : (ceilSqrt st.cells.length : ℚ)
        * (st.die_width / (ceilSqrt st.cells.length : ℚ)) = st.die_width := by
      rw [mul_comm, div_mul_cancel₀ _ (ne_of_gt hsQ)]
    have hH : (ceilSqrt st.cells.length : ℚ)
        * (st.die_height / (ceilSqrt st.cells.length : ℚ)) = st.die_height := by
      rw [mul_comm, div_mul_cancel₀ _ (ne_of_gt hsQ)]
    have hcolW := mul_le_mul_of_nonneg_right hcolQ hgw.le
    have hrowH := mul_le_mul_of_nonneg_right hrowQ hgh.le
    rw [add_mul, one_mul] at hcolW hrowH
    refine ⟨?_, ?_, ?_, ?_⟩
    · rw [hxi]
      have := mul_nonneg hcol0 hgw.le
      linarith
    · rw [hxi]
      linarith
    · rw [hyi]
      have := mul_nonneg hrow0 hgh.le
      linarith
    · rw [hyi]
      linarith

/-- Witness for C2 on the concrete two-cell state. -/
theorem placeCells_grid_witness :
    ∃ st2, placeCells exTwoCells = some st2
      ∧ st2.cells.length = exTwoCells.cells.length
      ∧ exTwoCells.cells.length
          ≤ ceilSqrt exTwoCells.cells.length * ceilSqrt exTwoCells.cells.length
      ∧ (ceilSqrt exTwoCells.cells.length - 1) * (ceilSqrt exTwoCells.cells.length - 1)
          < exTwoCells.cells.length
      ∧ (∀ i : ℕ,
          st2.cells[i]?
            = (exTwoCells.cells[i]?).map fun kc =>
                (kc.1,
                 { kc.2 with
                     x := ((i % ceilSqrt exTwoCells.cells.length : ℕ) : ℚ)
                            * (exTwoCells.die_width / (ceilSqrt exTwoCells.cells.length : ℚ))
                          + (exTwoCells.die_width / (ceilSqrt exTwoCells.cells.length : ℚ)) / 2,
                     y := ((i / ceilSqrt exTwoCells.cells.length : ℕ) : ℚ)
                            * (exTwoCells.die_height / (ceilSqrt exTwoCells.cells.length : ℚ))
                          + (exTwoCells.die_height / (ceilSqrt exTwoCells.cells.length : ℚ)) / 2 }))
      ∧ (∀ (i j : ℕ) (hi : i < st2.cells.length) (hj : j < st2.cells.length), i ≠ j →
          ¬((st2.cells[i]).2.x = (st2.cells[j]).2.x
            ∧ (st2.cells[i]).2.y = (st2.cells[j]).2.y))
      ∧ (∀ (i : ℕ) (hi : i < st2.cells.length),
          0 ≤ (st2.cells[i]).2.x ∧ (st2.cells[i]).2.x < exTwoCells.die_width
          ∧ 0 ≤ (st2.cells[i]).2.y ∧ (st2.cells[i]).2.y < exTwoCells.die_height) :=
  placeCells_grid exTwoCells (by decide) (by norm_num [exTwoCells]) (by norm_num [exTwoCells])

/-!  ## C8 — serializer counts and coordinate truncation -/
theorem flatMap_two_len {α : Type} (l : List α) (f : α → List String)
    (h : ∀ a, (f a).length = 2) : (l.flatMap f).length = 2 * l.length := by
  induction l with
  | nil => rfl
  | cons a as ih =>
    rw [List.flatMap_cons, List.length_append, h a, ih, List.length_cons]
    ring

theorem truncQ_is_truncation (q : ℚ) :
    |q - (truncQ q : ℚ)| < 1 ∧ |(truncQ q : ℚ)| ≤ |q| := by
  unfold truncQ
  by_cases h : q < 0
  · rw [if_pos h]
    have h1 := Int.le_ceil q
    have h2 := Int.ceil_lt_add_one q
    constructor
    · rw [abs_sub_comm, abs_of_nonneg (by linarith)]
      linarith
    · have h4 : (⌈q⌉ : ℤ) ≤ 0 := Int.ceil_le.mpr (by exact_mod_cast h.le)
      have h3 : ((⌈q⌉ : ℤ) : ℚ) ≤ 0 := by exact_mod_cast h4
      rw [abs_of_nonpos h3, abs_of_nonpos h.le]
      linarith
  · rw [if_neg h]
    push_neg at h
    have h1 := Int.floor_le q
    have h2 := Int.lt_floor_add_one q
    have h3 : (0 : ℚ) ≤ ((⌊q⌋ : ℤ) : ℚ) := by exact_mod_cast Int.floor_nonneg.mpr h
    constructor
    · rw [abs_of_nonneg (by linarith)]
      linarith
    · rw [abs_of_nonneg h3, abs_of_nonneg h]
      exact h1

/-- C8: the document built by `generate_def` declares in the
`COMPONENTS`/`NETS` headers exactly the number of two-line entries
emitted beneath them (one per cell / one per recomputed route), and every
coordinate written — in `PLACED` lines and in `ROUTED` paths — is the
toward-zero truncation `truncQ` of the stored rational coordinate (a
truncation, not a rounding: it differs from the stored value by less
than one and never grows in magnitude). -/
theorem generateDef_counts (st : RouterState) :
    defContent st
      = ["VERSION 5.8 ;", "DESIGN top ;", "UNITS DISTANCE MICRONS 1000 ;",
         "DIEAREA ( 0 0 ) ( " ++ toString st.die_width ++ " "
           ++ toString st.die_height ++ " ) ;"]
        ++ (("COMPONENTS " ++ toString st.cells.length ++ " ;")
             :: (st.cells.map Prod.snd).flatMap cellEntry)
        ++ ["END COMPONENTS"]
        ++ (("NETS " ++ toString (routeNets (st.cells.map Prod.snd)).length ++ " ;")
             :: (routeNets (st.cells.map Prod.snd)).flatMap routeEntry)
        ++ ["END NETS", "END DESIGN"]
    ∧ ((st.cells.map Prod.snd).flatMap cellEntry).length = 2 * st.cells.length
    ∧ (∀ c ∈ st.cells.map Prod.snd,
        cellEntry c
          = ["- " ++ c.name ++ " " ++ c.cell_type,
             "  + PLACED ( " ++ toString (truncQ c.x) ++ " "
               ++ toString (truncQ c.y) ++ " ) N ;"])
    ∧ ((routeNets (st.cells.map Prod.snd)).flatMap routeEntry).length
        = 2 * (routeNets (st.cells.map Prod.snd)).length
    ∧ (∀ r ∈ routeNets (st.cells.map Prod.snd),
        routeEntry r
          = ["- " ++ r.1,
             "  + ROUTED " ++ " ".intercalate (r.2.map pointStr) ++ " ;"])
    ∧ (∀ p : ℚ × ℚ,
        pointStr p = "( " ++ toString (truncQ p.1) ++ " " ++ toString (truncQ p.2) ++ " )")
    ∧ (∀ q : ℚ, |q - (truncQ q : ℚ)| < 1 ∧ |(truncQ q : ℚ)| ≤ |q|) := by
  refine ⟨?_, ?_, ?_, ?_, ?_, ?_, truncQ_is_truncation⟩
  · rfl
  · rw [flatMap_two_len (st.cells.map Prod.snd) cellEntry (fun c => rfl)]
    simp
  · intro c _
    rfl
  · exact flatMap_two_len (routeNets (st.cells.map Prod.snd)) routeEntry (fun r => rfl)
  · intro r _
    rfl
  · intro p
    rfl

/-- Witness for C8 at a concrete placed state. -/
theorem generateDef_counts_witness :
    cellEntry exSerCell
      = ["- " ++ exSerCell.name ++ " " ++ exSerCell.cell_type,
         "  + PLACED ( " ++ toString (truncQ exSerCell.x) ++ " "
           ++ toString (truncQ exSerCell.y) ++ " ) N ;"] :=
  (generateDef_counts
      { cells := [("c", exSerCell)], nets := [], die_width := 100, die_height := 100,
        grid_size := 1 }).2.2.1 exSerCell (by simp)
